import Mathlib

/-!
Shallow embedding of the `umesh` repository (connection matrices, orbit
extraction from half-edge permutations, and the simplicial set algebra on
meshes), together with proofs settling the specification claims.

Rust `usize` values are modelled as `Nat` (no arithmetic in the sources can
overflow a 64-bit machine word on the inputs the functions accept, and all
index arithmetic is pure counting).  Fallible steps of the Rust code — slice
indexing that can panic, `assert!` failures, and loops that can run forever —
are modelled with `Option`: `none` stands for "no value is returned normally"
(a panic, or divergence for the fuel-indexed loops, as noted at each
definition).
-/

/-- `ConnectionMatrix` from `connection_matrix.rs`: compressed sparse rows
without stored elements.  `fr` is the row-pointer array, `tos` the flat column
array, `to_max` the largest column index seen. -/
structure ConnectionMatrix where
  fr : List Nat
  tos : List Nat
  to_max : Nat
deriving DecidableEq, Repr

/-- Lexicographic order on index pairs: the order `sort_unstable` uses on
`(usize, usize)` via the derived `Ord`. -/
def pairLe (a b : Nat × Nat) : Prop :=
  a.1 < b.1 ∨ (a.1 = b.1 ∧ a.2 ≤ b.2)

instance : DecidableRel pairLe := fun a b => by
  unfold pairLe; infer_instance

instance : IsTotal (Nat × Nat) pairLe := by
  constructor
  intro a b
  unfold pairLe
  omega

instance : IsTrans (Nat × Nat) pairLe := by
  constructor
  intro a b c hab hbc
  unfold pairLe at hab hbc ⊢
  omega

/-- The loop body of `ConnectionMatrix::from_sorted_vec`.  The Rust `while
f != current_fr` loop pushes the running element count `n` once per skipped
row and increments `current_fr`; when `f < current_fr` that loop never
terminates normally (`current_fr` only grows away from `f`), which is
modelled by `none`.  Otherwise it pushes `f - cur` copies of `n`. -/
def fromSortedVecLoop :
    List (Nat × Nat) → Nat → Nat → List Nat → List Nat → Nat →
    Option (List Nat × List Nat × Nat)
  | [], _n, _cur, fr, tos, toMax => some (fr ++ [tos.length], tos, toMax)
  | (f, t) :: rest, n, cur, fr, tos, toMax =>
    if f < cur then none
    else fromSortedVecLoop rest (n + 1) f (fr ++ List.replicate (f - cur) n)
      (tos ++ [t]) (max toMax t)

/-- `ConnectionMatrix::from_sorted_vec`: compress an (assumed sorted) pair
list into CRS form.  The function is `unsafe` in the source and performs no
validation; on input whose row indices ever decrease the Rust loop does not
terminate normally (modelled by `none`). -/
def ConnectionMatrix.from_sorted_vec (indices : List (Nat × Nat)) :
    Option ConnectionMatrix :=
  match fromSortedVecLoop indices 0 0 [0] [] 0 with
  | some (fr, tos, toMax) => some ⟨fr, tos, toMax⟩
  | none => none

/-- `ConnectionMatrix::from_vec`: sort the pairs (`sort_unstable` with the
derived lexicographic `Ord`; on `Nat × Nat` the sorted permutation is unique,
so `insertionSort` computes exactly its result), then compress. -/
def ConnectionMatrix.from_vec (indices : List (Nat × Nat)) :
    Option ConnectionMatrix :=
  ConnectionMatrix.from_sorted_vec (List.insertionSort pairLe indices)

/-- `ConnectionMatrix::from_iter`: collects the iterator and delegates to
`from_vec`. -/
def ConnectionMatrix.from_iter (indices : List (Nat × Nat)) :
    Option ConnectionMatrix :=
  ConnectionMatrix.from_vec indices

/-- `ConnectionMatrix::get_connected`: `&self.tos[self.fr[i]..self.fr[i+1]]`.
Any of the three panics (row-pointer reads out of range, or an invalid slice
range) is modelled by `none`. -/
def ConnectionMatrix.get_connected (m : ConnectionMatrix) (from_index : Nat) :
    Option (List Nat) :=
  match m.fr[from_index]?, m.fr[from_index + 1]? with
  | some first, some last =>
    if first ≤ last ∧ last ≤ m.tos.length then
      some ((m.tos.drop first).take (last - first))
    else none
  | _, _ => none

/-- `ConnectionMatrix::shape`: `(fr.len() - 1, to_max + 1)`. -/
def ConnectionMatrix.shape (m : ConnectionMatrix) : Nat × Nat :=
  (m.fr.length - 1, m.to_max + 1)

/-- State of `IndexIter` from `connection_matrix.rs`. -/
structure IterState where
  f_index : Nat
  f_count : Nat
  t_index : Nat
deriving DecidableEq, Repr

/-- One call of `IndexIter::next`.  Result: `some none` is iterator
exhaustion (`None` in Rust), `some (some (pair, state))` a yielded pair, and
`none` a panic (the `self.fr[self.f_index]` read out of range).  The code
compares the running per-row count `f_count` against the cumulative
row-pointer value `fr[f_index]` — exactly as the source does. -/
def iterNext (fr tos : List Nat) (s : IterState) :
    Option (Option ((Nat × Nat) × IterState)) :=
  if s.t_index ≥ tos.length then some none
  else
    match fr[s.f_index]? with
    | none => none
    | some frv =>
      let f := s.f_index
      let fc := s.f_count + 1
      let (fc2, fi2) := if fc ≥ frv then (0, s.f_index + 1) else (fc, s.f_index)
      match tos[s.t_index]? with
      | none => none
      | some t => some (some ((f, t), ⟨fi2, fc2, s.t_index + 1⟩))

/-- Drive `IndexIter` to completion.  Each yielded pair increments `t_index`,
so `tos.length` units of fuel are exactly enough; at fuel `0` the iterator is
already exhausted and the collected tail is `[]`. -/
def iterLoop (fr tos : List Nat) : Nat → IterState → Option (List (Nat × Nat))
  | 0, _ => some []
  | fuel + 1, s =>
    match iterNext fr tos s with
    | none => none
    | some none => some []
    | some (some (p, s2)) => (iterLoop fr tos fuel s2).map (p :: ·)

/-- `ConnectionMatrix::indices`: the full pair list produced by `IndexIter`
starting from the initial state. -/
def ConnectionMatrix.indices (m : ConnectionMatrix) : Option (List (Nat × Nat)) :=
  iterLoop m.fr m.tos m.tos.length ⟨0, 0, 0⟩

/-- `ConnectionMatrix::transpose`: rebuild from the swapped pair sequence. -/
def ConnectionMatrix.transpose (m : ConnectionMatrix) : Option ConnectionMatrix :=
  (m.indices).bind fun ps =>
    ConnectionMatrix.from_iter (ps.map fun p => (p.2, p.1))

/-- Rust `Vec::dedup`: remove *consecutive* duplicates. -/
def rustDedup {α : Type} [DecidableEq α] : List α → List α
  | [] => []
  | [a] => [a]
  | a :: b :: rest =>
    if a = b then rustDedup (b :: rest) else a :: rustDedup (b :: rest)

/-- The `flat_map`/`collect` stage of `ConnectionMatrix::map`: concatenate
`get_connected` of each requested row, propagating any panic. -/
def collectConnected (m : ConnectionMatrix) : List Nat → Option (List Nat)
  | [] => some []
  | i :: rest =>
    match m.get_connected i, collectConnected m rest with
    | some s, some t => some (s ++ t)
    | _, _ => none

/-- `ConnectionMatrix::map`: gather the rows, `sort_unstable`, `dedup`. -/
def ConnectionMatrix.map (m : ConnectionMatrix) (from_indices : List Nat) :
    Option (List Nat) :=
  (collectConnected m from_indices).map fun l =>
    rustDedup (List.insertionSort (· ≤ ·) l)

/-- `Orbit` from `permutation.rs`: a cycle of half-edge indices, stored
rotated so that the minimum comes first. -/
structure Orbit where
  edges : List Nat
deriving DecidableEq, Repr

/-- The loop of `impl Ord for Orbit`, which walks index `i` upward comparing
`self.edges[i]` with `other.edges[i]` and stops with `Equal` as soon as
`i == self.edges.len() - 1`.  Walking an index through a list is the same as
walking the two suffixes starting at that index, so the loop is embedded
structurally on those suffixes; `i == self.edges.len() - 1` is exactly "the
`self` suffix has length 1".  `none` models the panic when either indexing
operation is out of range (which happens when the loop runs past the end of
either vector). -/
def cmpLoop : List Nat → List Nat → Option Ordering
  | x :: xs, y :: ys =>
    if x < y then some Ordering.lt
    else if y < x then some Ordering.gt
    else if xs = [] then some Ordering.eq
    else cmpLoop xs ys
  | _, _ => none

/-- `Ord::cmp` for `Orbit`. -/
def Orbit.cmp (self other : Orbit) : Option Ordering :=
  cmpLoop self.edges other.edges

/-- The argmin fold inside `Orbit::new`: tracks the index of the first
strictly-smallest element seen so far (`if min > *e`). -/
def argminLoop : List Nat → Nat → Nat → Nat → Nat × Nat
  | [], _i, am, m => (am, m)
  | e :: rest, i, am, m =>
    if m > e then argminLoop rest (i + 1) i e else argminLoop rest (i + 1) am m

/-- `Orbit::new`: assert non-emptiness (`none` models the panic on `[]`),
find the first position of the minimum, and rotate it to the front via
`split_at`. -/
def Orbit.new (edges : List Nat) : Option Orbit :=
  if edges.length > 0 then
    let am := (argminLoop edges 0 0 (edges.headD 0)).1
    some ⟨edges.drop am ++ edges.take am⟩
  else none

/-- `twin` from `permutation.rs`. -/
def twin (index : Nat) : Nat :=
  if index % 2 = 0 then index + 1 else index - 1

/-- The orbit-tracing loop of `gather_vertices` (`current = next[twin(current)]`
until the seed reappears).  The nested `Option` separates the three possible
fates of the Rust loop: `none` — still running after `fuel` iterations (the
loop has no other exit, so `(∀ fuel, … = none)` states divergence);
`some none` — the indexing `next[t]` panicked; `some (some orbit)` — the
loop broke normally with the accumulated orbit. -/
def traceTwinNext (next : List Nat) (init : Nat) :
    Nat → Nat → List Nat → Option (Option (List Nat))
  | 0, _, _ => none
  | fuel + 1, current, acc =>
    match next[twin current]? with
    | none => some none
    | some c =>
      if c = init then some (some acc)
      else traceTwinNext next init fuel c (acc ++ [c])

/-- The orbit-tracing loop of `gather_faces` (`current = next[current]`),
with the same fuel convention as `traceTwinNext`. -/
def traceNext (next : List Nat) (init : Nat) :
    Nat → Nat → List Nat → Option (Option (List Nat))
  | 0, _, _ => none
  | fuel + 1, current, acc =>
    match next[current]? with
    | none => some none
    | some c =>
      if c = init then some (some acc)
      else traceNext next init fuel c (acc ++ [c])

/-- One `orderedInsert` step of the `sort_unstable` call on orbit lists, with
the partial comparator: a comparison that panics aborts the sort (`none`).
`sort_unstable` places `a` before `b` when `cmp a b ≠ Greater`. -/
def sortOrbitsInsert (a : Orbit) : List Orbit → Option (List Orbit)
  | [] => some [a]
  | b :: rest =>
    match Orbit.cmp a b with
    | none => none
    | some o =>
      if o ≠ Ordering.gt then some (a :: b :: rest)
      else (sortOrbitsInsert a rest).map (b :: ·)

/-- `vs.sort_unstable()` on a list of orbits.  Which comparisons Rust's
unstable sort executes is implementation-defined; insertion sort is one
sorting algorithm, and on inputs where no executed comparison panics it
computes the (unique, because `dedup`-bound duplicates are literal equals)
sorted result.  `none` propagates a panicking comparison. -/
def sortOrbits : List Orbit → Option (List Orbit)
  | [] => some []
  | a :: rest => (sortOrbits rest).bind (sortOrbitsInsert a)

/-- The per-seed body of `gather_vertices`, mapped over `0..n`: trace the
twin-next orbit of each seed and canonicalize with `Orbit::new`.  Fates
combine sequentially, first failure wins, mirroring the iteration order. -/
def traceAllVertices (next : List Nat) (fuel : Nat) :
    List Nat → Option (Option (List Orbit))
  | [] => some (some [])
  | i :: rest =>
    match traceTwinNext next i fuel i [i] with
    | none => none
    | some none => some none
    | some (some orb) =>
      match Orbit.new orb with
      | none => some none
      | some o =>
        match traceAllVertices next fuel rest with
        | none => none
        | some none => some none
        | some (some os) => some (some (o :: os))

/-- The per-seed body of `gather_faces`. -/
def traceAllFaces (next : List Nat) (fuel : Nat) :
    List Nat → Option (Option (List Orbit))
  | [] => some (some [])
  | i :: rest =>
    match traceNext next i fuel i [i] with
    | none => none
    | some none => some none
    | some (some orb) =>
      match Orbit.new orb with
      | none => some none
      | some o =>
        match traceAllFaces next fuel rest with
        | none => none
        | some none => some none
        | some (some os) => some (some (o :: os))

/-- `gather_vertices` from `permutation.rs`.  `some none` models a panic
(the `assert_eq!(permutation.len() % 2, 0)`, an out-of-range `next[t]`, or a
panicking comparison inside `sort_unstable`); `none` means some orbit trace
is still running after `fuel` steps. -/
def gather_vertices (fuel : Nat) (next : List Nat) :
    Option (Option (List Orbit)) :=
  if next.length % 2 = 0 then
    match traceAllVertices next fuel (List.range next.length) with
    | none => none
    | some none => some none
    | some (some vs) =>
      match sortOrbits vs with
      | none => some none
      | some sorted => some (some (rustDedup sorted))
  else some none

/-- `gather_faces` from `permutation.rs`, with the same conventions. -/
def gather_faces (fuel : Nat) (next : List Nat) :
    Option (Option (List Orbit)) :=
  if next.length % 2 = 0 then
    match traceAllFaces next fuel (List.range next.length) with
    | none => none
    | some none => some none
    | some (some vs) =>
      match sortOrbits vs with
      | none => some none
      | some sorted => some (some (rustDedup sorted))
  else some none

/-- `Mesh` from `half_edge.rs`: the four cached connection matrices. -/
structure Mesh where
  vertex_edge : ConnectionMatrix
  edge_vertex : ConnectionMatrix
  edge_face : ConnectionMatrix
  face_edge : ConnectionMatrix
deriving DecidableEq, Repr

/-- Modelled from the spec: the method `Connection::gather_connected` is
called throughout `half_edge.rs` but the `Connection` wrapper's own code is
not among the sources; per the spec, "`gather(rows)`: returns the sorted,
deduplicated union of `row(r)` over a set of rows" and "`row(r)` … fails with
`IndexOutOfRange` if r ≥ num_rows".  A `BTreeSet<usize>` is modelled as
`Finset ℕ` (sortedness and deduplication are intrinsic); the failure of any
row lookup is modelled as `none`. -/
def ConnectionMatrix.gather_connected (m : ConnectionMatrix) (rows : Finset ℕ) :
    Option (Finset ℕ) :=
  if ∀ r ∈ rows, (m.get_connected r).isSome then
    some (rows.biUnion fun r => ((m.get_connected r).getD []).toFinset)
  else none

/-- `Mesh::from_connections`: check the shared edge-space sizes
(`assert_eq!(e1, e2)`, whose failure is modelled by `none`), then compute and
cache both transposes. -/
def Mesh.from_connections (vertex_edge edge_face : ConnectionMatrix) :
    Option Mesh :=
  let e1 := vertex_edge.shape.2
  let e2 := edge_face.shape.1
  if e1 = e2 then do
    let edge_vertex ← vertex_edge.transpose
    let face_edge ← edge_face.transpose
    some ⟨vertex_edge, edge_vertex, edge_face, face_edge⟩
  else none

/-- `Simplices` from `half_edge.rs`: three `BTreeSet<usize>` (modelled as
`Finset ℕ`); the `mesh` reference is passed explicitly to each operation. -/
structure Simplices where
  vertices : Finset ℕ
  edges : Finset ℕ
  faces : Finset ℕ

instance : DecidableEq Simplices := fun a b =>
  decidable_of_iff
    (a.vertices = b.vertices ∧ a.edges = b.edges ∧ a.faces = b.faces)
    (by cases a; cases b; simp)

/-- `impl Sub for Simplices`: per-dimension `BTreeSet::difference`. -/
def Simplices.sub (self other : Simplices) : Simplices :=
  ⟨self.vertices \ other.vertices, self.edges \ other.edges,
    self.faces \ other.faces⟩

/-- `Simplices::is_complex`.  The source returns `false` early when the
gathered edges are not a subset of `self.edges`, before gathering vertices. -/
def Simplices.is_complex (m : Mesh) (self : Simplices) : Option Bool := do
  let edges ← m.face_edge.gather_connected self.faces
  if edges ⊆ self.edges then
    let vertices ← m.edge_vertex.gather_connected edges
    pure (decide (vertices ⊆ self.vertices))
  else pure false

/-- `Simplices::star`: `E' = gather(vertex_edge, V) ∪ E`,
`F' = gather(edge_face, E') ∪ F`, vertices unchanged. -/
def Simplices.star (m : Mesh) (self : Simplices) : Option Simplices := do
  let e0 ← m.vertex_edge.gather_connected self.vertices
  let edges := e0 ∪ self.edges
  let f0 ← m.edge_face.gather_connected edges
  pure ⟨self.vertices, edges, f0 ∪ self.faces⟩

/-- `Simplices::closure`: `E' = gather(face_edge, F) ∪ E`,
`V' = gather(edge_vertex, E') ∪ V`, faces unchanged. -/
def Simplices.closure (m : Mesh) (self : Simplices) : Option Simplices := do
  let e0 ← m.face_edge.gather_connected self.faces
  let edges := e0 ∪ self.edges
  let v0 ← m.edge_vertex.gather_connected edges
  pure ⟨v0 ∪ self.vertices, edges, self.faces⟩

/-- `Simplices::link`: `self.star().closure() - self.closure().star()`, the
left operand evaluated first. -/
def Simplices.link (m : Mesh) (self : Simplices) : Option Simplices := do
  let a ← Simplices.star m self
  let b ← Simplices.closure m a
  let c ← Simplices.closure m self
  let d ← Simplices.star m c
  pure (Simplices.sub b d)

/-- Modelled from the spec's words for claim C1 (for comparison against
`Simplices.link`): "link(S) = star(closure(S)) − closure(star(S))", i.e. the
star of the closure minus the closure of the star. -/
def linkSpecClaim (m : Mesh) (self : Simplices) : Option Simplices := do
  let c ← Simplices.closure m self
  let sc ← Simplices.star m c
  let a ← Simplices.star m self
  let ca ← Simplices.closure m a
  pure (Simplices.sub sc ca)

/-- A concrete triangle mesh (vertices 0,1,2; edges 0,1,2; one face), used to
instantiate the Simplices claims.  `vertex_edge` rows: v0 → {e0,e2},
v1 → {e0,e1}, v2 → {e1,e2}; `edge_face`: every edge → f0; the other two
matrices are their transposes. -/
def triMesh : Mesh :=
  ⟨⟨[0, 2, 4, 6], [0, 2, 0, 1, 1, 2], 2⟩,
   ⟨[0, 2, 4, 6], [0, 1, 1, 2, 0, 2], 2⟩,
   ⟨[0, 1, 2, 3], [0, 0, 0], 0⟩,
   ⟨[0, 3], [0, 1, 2], 2⟩⟩

/-- The selection consisting of vertex 0 of `triMesh`. -/
def triS : Simplices := ⟨{0}, ∅, ∅⟩

/-- C1, counterexample: on the triangle mesh with S = {vertex 0}, the claimed
formula `star(closure(S)) − closure(star(S))` gives the empty selection while
`link` (which the source computes as `closure(star(S)) − star(closure(S))`)
gives the opposite edge with its two endpoints — so the claim as stated is
false. -/
theorem c1_counterexample :
    linkSpecClaim triMesh triS = some ⟨∅, ∅, ∅⟩ ∧
    Simplices.link triMesh triS = some ⟨{1, 2}, {1}, ∅⟩ ∧
    linkSpecClaim triMesh triS ≠ Simplices.link triMesh triS := by
  decide

/-- C1, amended: for every `Simplices` S, `link(S)` equals
`closure(star(S)) − star(closure(S))` (the source's composition order, which
is also the textbook Lk(S) = Cl(St(S)) − St(Cl(S))), where `−` is
per-dimension set difference applied independently to the vertex, edge and
face sets — whenever the four intermediate operations return values. -/
theorem c1_link_eq_closure_star_sub_star_closure
    (m : Mesh) (s a b c d : Simplices)
    (h1 : Simplices.star m s = some a) (h2 : Simplices.closure m a = some b)
    (h3 : Simplices.closure m s = some c) (h4 : Simplices.star m c = some d) :
    Simplices.link m s =
      some ⟨b.vertices \ d.vertices, b.edges \ d.edges, b.faces \ d.faces⟩ := by
  simp [Simplices.link, h1, h2, h3, h4, Simplices.sub]

/-- Witness for the amended C1 claim on the triangle mesh. -/
theorem c1_link_witness :
    Simplices.link triMesh triS = some ⟨{1, 2}, {1}, ∅⟩ := by
  have h := c1_link_eq_closure_star_sub_star_closure triMesh triS
    ⟨{0}, {0, 2}, {0}⟩ ⟨{1, 2, 0}, {1, 0, 2}, {0}⟩ ⟨{0}, ∅, ∅⟩
    ⟨{0}, {0, 2}, {0}⟩ rfl rfl rfl rfl
  rw [h]
  rfl

/-- C2: the pair sequence of the matrix built from `[(0,0),(0,2)]` is
`[(0,0),(1,2)]` — `IndexIter::next` compares its running per-row count with
the cumulative row pointer `fr[f_index]`, wrongly advancing the row after the
first yield — so rebuilding from the pair sequence yields a different matrix
and the round-trip claim fails. -/
theorem c2_pairs_roundtrip_fails :
    ConnectionMatrix.from_vec [(0, 0), (0, 2)] = some ⟨[0, 2], [0, 2], 2⟩ ∧
    ConnectionMatrix.indices ⟨[0, 2], [0, 2], 2⟩ = some [(0, 0), (1, 2)] ∧
    ConnectionMatrix.from_vec [(0, 0), (1, 2)] = some ⟨[0, 1, 2], [0, 2], 2⟩ ∧
    (⟨[0, 1, 2], [0, 2], 2⟩ : ConnectionMatrix) ≠ ⟨[0, 2], [0, 2], 2⟩ := by
  decide

/-- C5: on the matrix built from `[(0,0)]` (one row), `get_connected 0`
returns the row slice but `get_connected 1` — the first index `≥ num_rows` —
reads the row-pointer array out of range and panics (modelled by `none`)
instead of failing with `IndexOutOfRange`. -/
theorem c5_row_lookup_panics_out_of_range :
    ConnectionMatrix.from_vec [(0, 0)] = some ⟨[0, 1], [0], 0⟩ ∧
    (ConnectionMatrix.shape ⟨[0, 1], [0], 0⟩).1 = 1 ∧
    ConnectionMatrix.get_connected ⟨[0, 1], [0], 0⟩ 0 = some [0] ∧
    ConnectionMatrix.get_connected ⟨[0, 1], [0], 0⟩ 1 = none := by
  decide

/-- C9: `Mesh::from_connections` hits `assert_eq!(e1, e2)` (modelled by
`none`) instead of failing with `ShapeMismatch` when the column bound of
`vertex_edge` (here 1) differs from the row count of `edge_face` (here 2);
when the bounds agree it succeeds and stores both transposes. -/
theorem c9_from_connections_asserts_on_mismatch :
    (ConnectionMatrix.shape ⟨[0, 1], [0], 0⟩).2 = 1 ∧
    (ConnectionMatrix.shape ⟨[0, 1, 2], [0, 0], 0⟩).1 = 2 ∧
    Mesh.from_connections ⟨[0, 1], [0], 0⟩ ⟨[0, 1, 2], [0, 0], 0⟩ = none ∧
    Mesh.from_connections ⟨[0, 1], [0], 0⟩ ⟨[0, 1], [0], 0⟩ =
      some ⟨⟨[0, 1], [0], 0⟩, ⟨[0, 1], [0], 0⟩, ⟨[0, 1], [0], 0⟩,
        ⟨[0, 1], [0], 0⟩⟩ := by
  decide

/-- C10: comparing the orbit `[1]` with `[1,2]` returns `Equal` although the
orbits are unequal (the loop stops at `i = self.edges.len() - 1` without
looking at the rest of `other`), and the reversed comparison indexes
`other.edges[1]` out of range and panics (modelled by `none`) — the ordering
is neither total nor consistent with equality. -/
theorem c10_orbit_cmp_inconsistent :
    Orbit.cmp ⟨[1]⟩ ⟨[1, 2]⟩ = some Ordering.eq ∧
    (⟨[1]⟩ : Orbit) ≠ ⟨[1, 2]⟩ ∧
    Orbit.cmp ⟨[1, 2]⟩ ⟨[1]⟩ = none := by
  decide

/-- C4, counterexample: the public (`unsafe`, but exported) constructor
`from_sorted_vec` accepts the unsorted input `[(0,2),(0,0)]` without sorting
or validating it, and the resulting matrix's row 0 is `[2,0]`, which is not
sorted ascending — so not every publicly obtainable matrix satisfies the
sortedness invariant. -/
theorem c4_counterexample :
    ConnectionMatrix.from_sorted_vec [(0, 2), (0, 0)] =
      some ⟨[0, 2], [2, 0], 2⟩ ∧
    ConnectionMatrix.get_connected ⟨[0, 2], [2, 0], 2⟩ 0 = some [2, 0] ∧
    ¬ List.Pairwise (· ≤ ·) [2, 0] := by
  decide

/-- C8, counterexample: `[1,3,1,2]` is a rotation (by 2) of `[1,2,1,3]`, yet
`Orbit::new` canonicalizes the two to different orbits — rotation invariance
fails when the minimum element occurs more than once, because the rotation
point is the *first* occurrence of the minimum. -/
theorem c8_counterexample :
    [1, 2, 1, 3].rotate 2 = [1, 3, 1, 2] ∧
    Orbit.new [1, 2, 1, 3] = some ⟨[1, 2, 1, 3]⟩ ∧
    Orbit.new [1, 3, 1, 2] = some ⟨[1, 3, 1, 2]⟩ ∧
    Orbit.new [1, 2, 1, 3] ≠ Orbit.new [1, 3, 1, 2] := by
  decide

/-- In `next = [0,0]`, once the vertex trace of seed 1 reaches half-edge 0 it
stays there (`next[twin 0] = next[1] = 0 ≠ 1`), so no amount of fuel makes it
return. -/
theorem traceTwinNextZeroLoop (n : Nat) :
    ∀ acc, traceTwinNext [0, 0] 1 n 0 acc = none := by
  induction n with
  | zero => intro acc; rfl
  | succ k ih =>
    intro acc
    have e : traceTwinNext [0, 0] 1 (k + 1) 0 acc =
        traceTwinNext [0, 0] 1 k 0 (acc ++ [0]) := rfl
    rw [e]
    exact ih (acc ++ [0])

/-- Likewise for the face trace of seed 1 in `next = [0,0]`
(`next[0] = 0 ≠ 1`). -/
theorem traceNextZeroLoop (n : Nat) :
    ∀ acc, traceNext [0, 0] 1 n 0 acc = none := by
  induction n with
  | zero => intro acc; rfl
  | succ k ih =>
    intro acc
    have e : traceNext [0, 0] 1 (k + 1) 0 acc =
        traceNext [0, 0] 1 k 0 (acc ++ [0]) := rfl
    rw [e]
    exact ih (acc ++ [0])

/-- The vertex gathering of `next = [0,0]` never finishes: seed 0's orbit
closes at once, but seed 1's trace loops on half-edge 0 forever. -/
theorem gatherVerticesDiverges :
    ∀ fuel, gather_vertices fuel [0, 0] = none := by
  intro fuel
  match fuel with
  | 0 => rfl
  | n + 1 =>
    have h2 : traceTwinNext [0, 0] 1 (n + 1) 1 [1] = none := by
      have e : traceTwinNext [0, 0] 1 (n + 1) 1 [1] =
          traceTwinNext [0, 0] 1 n 0 [1, 0] := rfl
      rw [e]
      exact traceTwinNextZeroLoop n [1, 0]
    have h3 : traceAllVertices [0, 0] (n + 1) [1] = none := by
      simp only [traceAllVertices]
      rw [h2]
    have h4 : traceAllVertices [0, 0] (n + 1) [0, 1] = none := by
      show (match traceAllVertices [0, 0] (n + 1) [1] with
            | none => none
            | some none => some none
            | some (some os) =>
              some (some ((⟨[0]⟩ : Orbit) :: os)) : Option (Option (List Orbit))) = none
      rw [h3]
    show (match traceAllVertices [0, 0] (n + 1) [0, 1] with
          | none => none
          | some none => some none
          | some (some vs) =>
            match sortOrbits vs with
            | none => some none
            | some sorted =>
              some (some (rustDedup sorted)) : Option (Option (List Orbit))) = none
    rw [h4]

/-- The face gathering of `next = [0,0]` never finishes, for the same
reason. -/
theorem gatherFacesDiverges :
    ∀ fuel, gather_faces fuel [0, 0] = none := by
  intro fuel
  match fuel with
  | 0 => rfl
  | n + 1 =>
    have h2 : traceNext [0, 0] 1 (n + 1) 1 [1] = none := by
      have e : traceNext [0, 0] 1 (n + 1) 1 [1] =
          traceNext [0, 0] 1 n 0 [1, 0] := rfl
      rw [e]
      exact traceNextZeroLoop n [1, 0]
    have h3 : traceAllFaces [0, 0] (n + 1) [1] = none := by
      simp only [traceAllFaces]
      rw [h2]
    have h4 : traceAllFaces [0, 0] (n + 1) [0, 1] = none := by
      show (match traceAllFaces [0, 0] (n + 1) [1] with
            | none => none
            | some none => some none
            | some (some os) =>
              some (some ((⟨[0]⟩ : Orbit) :: os)) : Option (Option (List Orbit))) = none
      rw [h3]
    show (match traceAllFaces [0, 0] (n + 1) [0, 1] with
          | none => none
          | some none => some none
          | some (some vs) =>
            match sortOrbits vs with
            | none => some none
            | some sorted =>
              some (some (rustDedup sorted)) : Option (Option (List Orbit))) = none
    rw [h4]

/-- C3: on malformed `next` arrays, `gather_vertices` and `gather_faces` do
not fail with `InvalidPermutation` — they panic or loop forever.  `[0]` (odd
length) trips the `assert_eq!` (`some none` = panic) at every fuel; `[2,3]`
(targets out of `[0,2)`) makes the very first orbit trace index out of bounds
(`some none` = panic); and on the non-bijective `[0,0]` the seed-1 trace
never revisits its seed, so both functions fail to return at every fuel
bound (`none` at all fuels = the Rust loop runs forever). -/
theorem c3_malformed_input_panics_or_loops :
    (∀ fuel, gather_vertices fuel [0] = some none) ∧
    (∀ fuel, gather_faces fuel [0] = some none) ∧
    (∀ fuel, gather_vertices (fuel + 2) [2, 3] = some none) ∧
    (∀ fuel, gather_faces (fuel + 2) [2, 3] = some none) ∧
    (∀ fuel, gather_vertices fuel [0, 0] = none) ∧
    (∀ fuel, gather_faces fuel [0, 0] = none) := by
  exact ⟨fun _ => rfl, fun _ => rfl, fun _ => rfl, fun _ => rfl,
    gatherVerticesDiverges, gatherFacesDiverges⟩

/-- Successful `gather_connected` results are the union of the per-row
column sets, with every requested row in range. -/
theorem gather_connected_eq_some {m : ConnectionMatrix} {rows A : Finset ℕ}
    (h : m.gather_connected rows = some A) :
    (∀ r ∈ rows, (m.get_connected r).isSome) ∧
    A = rows.biUnion fun r => ((m.get_connected r).getD []).toFinset := by
  unfold ConnectionMatrix.gather_connected at h
  by_cases hc : ∀ r ∈ rows, (m.get_connected r).isSome
  · rw [if_pos hc] at h
    exact ⟨hc, (Option.some.inj h).symm⟩
  · rw [if_neg hc] at h
    exact absurd h (by simp)

/-- `gather_connected` is monotone: it succeeds on any subset of a
successful row set, with a result contained in the larger one. -/
theorem gather_connected_subset {m : ConnectionMatrix} {rows rows' A : Finset ℕ}
    (hsub : rows' ⊆ rows) (h : m.gather_connected rows = some A) :
    ∃ B, m.gather_connected rows' = some B ∧ B ⊆ A := by
  obtain ⟨hall, hA⟩ := gather_connected_eq_some h
  have hall' : ∀ r ∈ rows', (m.get_connected r).isSome := fun r hr => hall r (hsub hr)
  refine ⟨rows'.biUnion fun r => ((m.get_connected r).getD []).toFinset, ?_, ?_⟩
  · unfold ConnectionMatrix.gather_connected
    rw [if_pos hall']
  · rw [hA]
    exact Finset.biUnion_subset_biUnion_of_subset_left _ hsub

/-- C6: for every `Simplices` S over any mesh, whenever `closure(S)` returns
a value, `is_complex` holds of it: the edges gathered from its faces are
among its edges, and the vertices gathered from those edges are among its
vertices. -/
theorem c6_closure_is_complex (m : Mesh) (s c : Simplices)
    (h : Simplices.closure m s = some c) :
    Simplices.is_complex m c = some true := by
  unfold Simplices.closure at h
  cases hfe : m.face_edge.gather_connected s.faces with
  | none => rw [hfe] at h; exact absurd h (by simp)
  | some e0 =>
    rw [hfe] at h
    simp only [Option.pure_def, Option.bind_eq_bind, Option.some_bind] at h
    cases hev : m.edge_vertex.gather_connected (e0 ∪ s.edges) with
    | none => rw [hev] at h; exact absurd h (by simp)
    | some v0 =>
      rw [hev] at h
      simp only [Option.pure_def, Option.some_bind, Option.some.injEq] at h
      subst h
      unfold Simplices.is_complex
      rw [hfe]
      simp only [Option.pure_def, Option.bind_eq_bind, Option.some_bind]
      rw [if_pos (Finset.subset_union_left)]
      obtain ⟨B, hB, hBsub⟩ := gather_connected_subset Finset.subset_union_left hev
      rw [hB]
      simp only [Option.some_bind]
      have hBv : B ⊆ v0 ∪ s.vertices := hBsub.trans Finset.subset_union_left
      simp [hBv]

/-- Witness for C6: the closure of the face selection `{f0}` on the triangle
mesh is a complex. -/
theorem c6_closure_is_complex_witness :
    Simplices.is_complex triMesh ⟨{1, 0, 2}, {0, 1, 2}, {0}⟩ = some true :=
  c6_closure_is_complex triMesh ⟨∅, ∅, {0}⟩ ⟨{1, 0, 2}, {0, 1, 2}, {0}⟩ (by rfl)

/-- `Vec::dedup` never changes which elements occur. -/
theorem mem_rustDedup {α : Type} [DecidableEq α] :
    ∀ (l : List α) (a : α), a ∈ rustDedup l ↔ a ∈ l := by
  intro l
  induction l with
  | nil => intro a; exact Iff.rfl
  | cons x tail ih =>
    intro a
    cases tail with
    | nil => exact Iff.rfl
    | cons y rest =>
      by_cases hxy : x = y
      · rw [show rustDedup (x :: y :: rest) = rustDedup (y :: rest) from by
          simp [rustDedup, hxy]]
        rw [ih a]
        subst hxy
        simp [List.mem_cons]
      · rw [show rustDedup (x :: y :: rest) = x :: rustDedup (y :: rest) from by
          simp [rustDedup, hxy]]
        simp only [List.mem_cons, ih a]

/-- Deduplicating a `≤`-sorted list yields a strictly increasing list. -/
theorem pairwise_lt_rustDedup :
    ∀ (l : List Nat), List.Pairwise (· ≤ ·) l →
      List.Pairwise (· < ·) (rustDedup l) := by
  intro l
  induction l with
  | nil => intro _; exact List.Pairwise.nil
  | cons x tail ih =>
    intro hp
    cases tail with
    | nil => exact List.pairwise_singleton _ _
    | cons y rest =>
      have hp' := hp.of_cons
      have hxy : x ≤ y := (List.pairwise_cons.mp hp).1 y (by simp)
      by_cases hxe : x = y
      · rw [show rustDedup (x :: y :: rest) = rustDedup (y :: rest) from by
          simp [rustDedup, hxe]]
        exact ih hp'
      · rw [show rustDedup (x :: y :: rest) = x :: rustDedup (y :: rest) from by
          simp [rustDedup, hxe]]
        refine List.pairwise_cons.mpr ⟨?_, ih hp'⟩
        intro z hz
        rw [mem_rustDedup] at hz
        have hxlt : x < y := lt_of_le_of_ne hxy hxe
        rcases List.mem_cons.mp hz with h1 | h2
        · exact h1 ▸ hxlt
        · exact lt_of_lt_of_le hxlt ((List.pairwise_cons.mp hp').1 z h2)

/-- When every requested row lookup succeeds, the collect stage succeeds and
contains exactly the elements of the individual row slices. -/
theorem collectConnected_eq_some (m : ConnectionMatrix) :
    ∀ (rows : List Nat), (∀ r ∈ rows, (m.get_connected r).isSome) →
      ∃ flat, collectConnected m rows = some flat ∧
        ∀ x, x ∈ flat ↔ ∃ r ∈ rows, ∃ s, m.get_connected r = some s ∧ x ∈ s := by
  intro rows
  induction rows with
  | nil =>
    intro _
    exact ⟨[], rfl, by simp⟩
  | cons i rest ih =>
    intro h
    obtain ⟨s, hs⟩ := Option.isSome_iff_exists.mp (h i (by simp))
    obtain ⟨flat, hflat, hmem⟩ := ih fun r hr => h r (List.mem_cons_of_mem _ hr)
    refine ⟨s ++ flat, ?_, ?_⟩
    · show (match m.get_connected i, collectConnected m rest with
        | some s, some t => some (s ++ t)
        | _, _ => none) = some (s ++ flat)
      rw [hs, hflat]
    · intro x
      simp only [List.mem_append, hmem, List.mem_cons]
      constructor
      · rintro (hx | ⟨r, hr, t, ht, hxt⟩)
        · exact ⟨i, Or.inl rfl, s, hs, hx⟩
        · exact ⟨r, Or.inr hr, t, ht, hxt⟩
      · rintro ⟨r, hr | hr, t, ht, hxt⟩
        · subst hr
          rw [hs] at ht
          exact Or.inl ((Option.some.inj ht) ▸ hxt)
        · exact Or.inr ⟨r, hr, t, ht, hxt⟩

/-- C7: when every requested row lookup succeeds, `ConnectionMatrix::map`
returns exactly the sorted, deduplicated union of the individual row
lookups (strictly increasing, with membership exactly the union of the row
slices); in particular the empty row set yields the empty result. -/
theorem c7_map_sorted_dedup_union (m : ConnectionMatrix) (rows : List Nat)
    (h : ∀ r ∈ rows, (m.get_connected r).isSome) :
    ∃ out, ConnectionMatrix.map m rows = some out ∧
      List.Pairwise (· < ·) out ∧
      (∀ x, x ∈ out ↔ ∃ r ∈ rows, ∃ s, m.get_connected r = some s ∧ x ∈ s) ∧
      (rows = [] → out = []) := by
  obtain ⟨flat, hc, hmem⟩ := collectConnected_eq_some m rows h
  refine ⟨rustDedup (List.insertionSort (· ≤ ·) flat), ?_, ?_, ?_, ?_⟩
  · unfold ConnectionMatrix.map
    rw [hc]
    rfl
  · exact pairwise_lt_rustDedup _ (List.sorted_insertionSort _ flat)
  · intro x
    rw [mem_rustDedup, (List.perm_insertionSort (· ≤ ·) flat).mem_iff, hmem]
  · intro hrows
    subst hrows
    have : flat = [] := by
      have : collectConnected m [] = some [] := rfl
      rw [this] at hc
      exact (Option.some.inj hc).symm
    subst this
    rfl

/-- Witness for C7 on the 4×4 matrix of the repository's own test, gathering
rows 0 and 2. -/
theorem c7_map_witness :
    ∃ out,
      ConnectionMatrix.map ⟨[0, 2, 4, 6, 8], [0, 2, 0, 1, 1, 3, 0, 3], 3⟩ [0, 2] =
        some out ∧
      List.Pairwise (· < ·) out ∧
      (∀ x, x ∈ out ↔ ∃ r ∈ [0, 2], ∃ s,
        ConnectionMatrix.get_connected
          ⟨[0, 2, 4, 6, 8], [0, 2, 0, 1, 1, 3, 0, 3], 3⟩ r = some s ∧ x ∈ s) ∧
      ([0, 2] = ([] : List Nat) → out = []) :=
  c7_map_sorted_dedup_union ⟨[0, 2, 4, 6, 8], [0, 2, 0, 1, 1, 3, 0, 3], 3⟩
    [0, 2] (by decide)

/-- The argmin fold of `Orbit::new` returns a pair `(am, mn)` where `mn` is a
lower bound of the scanned elements (and of the running minimum), and either
nothing improved on the initial pair or `am` addresses an element equal to
`mn`. -/
theorem argminLoop_spec :
    ∀ (l : List Nat) (i am m : Nat),
      ((argminLoop l i am m).2 ≤ m ∧ ∀ x ∈ l, (argminLoop l i am m).2 ≤ x) ∧
      (argminLoop l i am m = (am, m) ∨
        ∃ j, j < l.length ∧ l[j]? = some (argminLoop l i am m).2 ∧
          (argminLoop l i am m).1 = i + j) := by
  intro l
  induction l with
  | nil =>
    intro i am m
    exact ⟨⟨le_refl m, by simp⟩, Or.inl rfl⟩
  | cons e rest ih =>
    intro i am m
    by_cases hme : m > e
    · rw [show argminLoop (e :: rest) i am m = argminLoop rest (i + 1) i e from by
        simp [argminLoop, hme]]
      obtain ⟨⟨hle, hall⟩, hpos⟩ := ih (i + 1) i e
      refine ⟨⟨hle.trans hme.le, ?_⟩, ?_⟩
      · intro x hx
        rcases List.mem_cons.mp hx with h1 | h2
        · exact h1 ▸ hle
        · exact hall x h2
      · rcases hpos with heq | ⟨j, hj, hjv, hja⟩
        · refine Or.inr ⟨0, by simp, ?_, ?_⟩
          · rw [heq]; simp
          · rw [heq]; simp
        · refine Or.inr ⟨j + 1, by simpa using hj, by simpa using hjv, by omega⟩
    · rw [show argminLoop (e :: rest) i am m = argminLoop rest (i + 1) am m from by
        simp [argminLoop, hme]]
      obtain ⟨⟨hle, hall⟩, hpos⟩ := ih (i + 1) am m
      refine ⟨⟨hle, ?_⟩, ?_⟩
      · intro x hx
        rcases List.mem_cons.mp hx with h1 | h2
        · exact h1 ▸ (hle.trans (not_lt.mp hme))
        · exact hall x h2
      · rcases hpos with heq | ⟨j, hj, hjv, hja⟩
        · exact Or.inl heq
        · exact Or.inr ⟨j + 1, by simpa using hj, by simpa using hjv, by omega⟩

/-- `Orbit::new` on a non-empty list rotates it so a minimum element comes
first: the rotation amount addresses a minimal element. -/
theorem orbit_new_eq_rotate (l : List Nat) (hne : l ≠ []) :
    ∃ am mn, am < l.length ∧ l[am]? = some mn ∧ (∀ x ∈ l, mn ≤ x) ∧
      Orbit.new l = some ⟨l.rotate am⟩ := by
  obtain ⟨⟨hle, hall⟩, hpos⟩ := argminLoop_spec l 0 0 (l.headD 0)
  have hlen : 0 < l.length := List.length_pos.mpr hne
  refine ⟨(argminLoop l 0 0 (l.headD 0)).1, (argminLoop l 0 0 (l.headD 0)).2,
    ?_, ?_, hall, ?_⟩
  case _ =>
    rcases hpos with heq | ⟨j, hj, _, hja⟩
    · rw [heq]; exact hlen
    · rw [hja]; simpa using hj
  case _ =>
    rcases hpos with heq | ⟨j, hj, hjv, hja⟩
    · rw [heq]
      show l[0]? = some (l.headD 0)
      cases l with
      | nil => exact absurd rfl hne
      | cons a rest => simp
    · rw [hja]
      simpa using hjv
  case _ =>
    unfold Orbit.new
    rw [if_pos hlen]
    have ham : (argminLoop l 0 0 (l.headD 0)).1 < l.length := by
      rcases hpos with heq | ⟨j, hj, _, hja⟩
      · rw [heq]; exact hlen
      · rw [hja]; simpa using hj
    rw [List.rotate_eq_drop_append_take ham.le]

/-- Two distinct positions holding the same value force a count of at least
two. -/
theorem count_two_of_two_getElem :
    ∀ (l : List Nat) (i j a : Nat), i < j → l[i]? = some a → l[j]? = some a →
      2 ≤ l.count a := by
  intro l
  induction l with
  | nil => intro i j a _ hi _; simp at hi
  | cons x rest ih =>
    intro i j a hij hi hj
    cases i with
    | zero =>
      have hax : x = a := by simpa using hi
      subst hax
      obtain ⟨j', rfl⟩ : ∃ j', j = j' + 1 := ⟨j - 1, by omega⟩
      have : x ∈ rest := List.getElem?_mem (by simpa using hj)
      have hc : 0 < rest.count x := List.count_pos_iff.mpr this
      rw [List.count_cons_self]
      omega
    | succ i' =>
      obtain ⟨j', rfl⟩ : ∃ j', j = j' + 1 := ⟨j - 1, by omega⟩
      have h2 : 2 ≤ rest.count a :=
        ih i' j' a (by omega) (by simpa using hi) (by simpa using hj)
      have := List.count_le_count_cons a x rest
      omega

/-- C8, amended: canonicalizing via `Orbit::new` is rotation-invariant for
every non-empty index sequence whose minimum element occurs exactly once
(the counterexample `c8_counterexample` shows this uniqueness hypothesis is
necessary); and for every non-empty index sequence — with no hypothesis on
the minimum — the canonical form begins with a minimum element of the
sequence. -/
theorem c8_canonical_rotation_invariant :
    (∀ (l : List Nat) (k mn : Nat), l ≠ [] → mn ∈ l → (∀ x ∈ l, mn ≤ x) →
      l.count mn = 1 → Orbit.new (l.rotate k) = Orbit.new l) ∧
    (∀ l : List Nat, l ≠ [] → ∃ o mn, Orbit.new l = some o ∧
      o.edges.head? = some mn ∧ mn ∈ l ∧ ∀ x ∈ l, mn ≤ x) := by
  constructor
  · intro l k mn hne hmem hmin huniq
    have hlen : 0 < l.length := List.length_pos.mpr hne
    obtain ⟨am, mnl, ham, hamv, hminl, hnew⟩ := orbit_new_eq_rotate l hne
    have hmnl : mnl = mn :=
      le_antisymm (hminl mn hmem) (hmin mnl (List.getElem?_mem hamv))
    rw [hmnl] at hamv hminl
    have hperm : List.Perm (l.rotate k) l := List.rotate_perm l k
    have hne2 : l.rotate k ≠ [] := by
      intro hc
      rw [← List.length_eq_zero, List.length_rotate] at hc
      omega
    obtain ⟨am2, mn2, ham2, hamv2x, hminl2, hnew2⟩ :=
      orbit_new_eq_rotate (l.rotate k) hne2
    have hmn2 : mn2 = mn := by
      refine le_antisymm (hminl2 mn (hperm.mem_iff.mpr hmem)) ?_
      exact hmin mn2 (hperm.subset (List.getElem?_mem hamv2x))
    rw [hmn2] at hamv2x
    have hlenr : (l.rotate k).length = l.length := List.length_rotate l k
    have hamv2 : l[(am2 + k) % l.length]? = some mn := by
      rw [← List.getElem?_rotate (by omega)]
      exact hamv2x
    have hmod : (am2 + k) % l.length < l.length := Nat.mod_lt _ hlen
    have hsame : (am2 + k) % l.length = am := by
      by_contra hc
      rcases Nat.lt_or_ge ((am2 + k) % l.length) am with hlt | hge
      · exact absurd huniq (by
          have := count_two_of_two_getElem l _ am mn hlt hamv2 hamv
          omega)
      · have hlt2 : am < (am2 + k) % l.length := by omega
        exact absurd huniq (by
          have := count_two_of_two_getElem l am _ mn hlt2 hamv hamv2
          omega)
    rw [hnew, hnew2]
    rw [List.rotate_rotate]
    rw [← List.rotate_mod l (k + am2)]
    rw [show (k + am2) % l.length = am from by rw [← hsame]; ring_nf]
  · intro l hne
    obtain ⟨am, mn, ham, hamv, hmin, hnew⟩ := orbit_new_eq_rotate l hne
    refine ⟨⟨l.rotate am⟩, mn, hnew, ?_, List.getElem?_mem hamv, hmin⟩
    show (l.rotate am).head? = some mn
    rw [List.head?_rotate ham]
    exact hamv

/-- Witness for the amended C8 claim, exercising both conjuncts: `[1,3,2]`
is the rotation by 1 of `[2,1,3]`, whose minimum 1 is unique; both
canonicalize to `[1,3,2]`, which begins with the minimum 1. -/
theorem c8_canonical_rotation_witness :
    Orbit.new ([2, 1, 3].rotate 1) = Orbit.new [2, 1, 3] ∧
    ∃ o mn, Orbit.new [2, 1, 3] = some o ∧ o.edges.head? = some mn ∧
      mn ∈ [2, 1, 3] ∧ ∀ x ∈ [2, 1, 3], mn ≤ x :=
  And.intro
    (c8_canonical_rotation_invariant.1 [2, 1, 3] 1 1 (by decide) (by decide)
      (by decide) (by decide))
    (c8_canonical_rotation_invariant.2 [2, 1, 3] (by decide))

/-- The row-pointer entries that the `from_sorted_vec` loop appends for a
(row-sorted) remaining input, given the running element count `n` and the
current row `cur`; ends with the final `fr.push(to.len())`. -/
def frTail : List (Nat × Nat) → Nat → Nat → List Nat
  | [], n, _cur => [n]
  | (f, _t) :: rest, n, cur => List.replicate (f - cur) n ++ frTail rest (n + 1) f

/-- The largest (= last) row index of a row-sorted pair list, defaulting to
`cur`. -/
def lastFst (l : List (Nat × Nat)) (cur : Nat) : Nat :=
  l.foldl (fun _ p => p.1) cur

/-- Closed form of the `from_sorted_vec` loop on row-sorted input: it never
diverges, the column array is the second components in order, and the
row-pointer array grows by `frTail`. -/
theorem fromSortedVecLoop_eq :
    ∀ (l : List (Nat × Nat)) (cur : Nat) (fr tos : List Nat) (tm : Nat),
      List.Pairwise (fun p q => p.1 ≤ q.1) l → (∀ p ∈ l, cur ≤ p.1) →
      fromSortedVecLoop l tos.length cur fr tos tm =
        some (fr ++ frTail l tos.length cur, tos ++ l.map Prod.snd,
          (l.map Prod.snd).foldl max tm) := by
  intro l
  induction l with
  | nil =>
    intro cur fr tos tm _ _
    simp [fromSortedVecLoop, frTail]
  | cons p rest ih =>
    intro cur fr tos tm hp hcur
    obtain ⟨f, t⟩ := p
    have hf : cur ≤ f := hcur (f, t) (by simp)
    have hrest : ∀ q ∈ rest, f ≤ q.1 := by
      intro q hq
      exact (List.pairwise_cons.mp hp).1 q hq
    have e : fromSortedVecLoop ((f, t) :: rest) tos.length cur fr tos tm =
        fromSortedVecLoop rest (tos.length + 1) f
          (fr ++ List.replicate (f - cur) tos.length) (tos ++ [t]) (max tm t) := by
      simp [fromSortedVecLoop, Nat.not_lt.mpr hf]
    rw [e]
    have e2 : tos.length + 1 = (tos ++ [t]).length := by simp
    rw [e2]
    rw [ih f (fr ++ List.replicate (f - cur) tos.length) (tos ++ [t]) (max tm t)
      (List.pairwise_cons.mp hp).2 hrest]
    simp [frTail, List.append_assoc]

/-- `lastFst` steps over a head pair. -/
theorem lastFst_cons (f t : Nat) (rest : List (Nat × Nat)) (cur : Nat) :
    lastFst ((f, t) :: rest) cur = lastFst rest f := rfl

/-- `lastFst` bounds the starting row from above. -/
theorem le_lastFst :
    ∀ (l : List (Nat × Nat)) (c : Nat), List.Pairwise (fun p q => p.1 ≤ q.1) l →
      (∀ p ∈ l, c ≤ p.1) → c ≤ lastFst l c := by
  intro l
  induction l with
  | nil => intro c _ _; exact le_refl c
  | cons p rest ih =>
    intro c hp hc
    obtain ⟨f, t⟩ := p
    rw [lastFst_cons]
    have hf : c ≤ f := hc (f, t) (by simp)
    have : f ≤ lastFst rest f :=
      ih f (List.pairwise_cons.mp hp).2 fun q hq => (List.pairwise_cons.mp hp).1 q hq
    omega

/-- Entry `j` of the appended row-pointer block counts the pairs in rows
`≤ cur + j`, offset by the running count `n`; entries exist exactly up to
the last row. -/
theorem frTail_getElem? :
    ∀ (l : List (Nat × Nat)) (n cur j : Nat),
      List.Pairwise (fun p q => p.1 ≤ q.1) l → (∀ p ∈ l, cur ≤ p.1) →
      (frTail l n cur)[j]? =
        if cur + j ≤ lastFst l cur
        then some (n + l.countP (fun p => p.1 ≤ cur + j))
        else none := by
  intro l
  induction l with
  | nil =>
    intro n cur j _ _
    match j with
    | 0 => simp [frTail, lastFst]
    | j + 1 => simp [frTail, lastFst]
  | cons p rest ih =>
    intro n cur j hp hcur
    obtain ⟨f, t⟩ := p
    have hf : cur ≤ f := hcur (f, t) (by simp)
    have hrest : ∀ q ∈ rest, f ≤ q.1 := fun q hq => (List.pairwise_cons.mp hp).1 q hq
    have hp' := (List.pairwise_cons.mp hp).2
    have hlast : f ≤ lastFst rest f := le_lastFst rest f hp' hrest
    rw [show frTail ((f, t) :: rest) n cur =
      List.replicate (f - cur) n ++ frTail rest (n + 1) f from rfl]
    rw [List.getElem?_append, lastFst_cons]
    by_cases hj : j < (List.replicate (f - cur) n).length
    · rw [if_pos hj]
      have hjf : cur + j < f := by
        rw [List.length_replicate] at hj
        omega
      rw [List.getElem?_replicate, if_pos (by rwa [List.length_replicate] at hj)]
      rw [if_pos (by omega)]
      have hz : ((f, t) :: rest).countP (fun p => p.1 ≤ cur + j) = 0 := by
        rw [List.countP_eq_zero]
        intro a ha
        rcases List.mem_cons.mp ha with h1 | h2
        · subst h1; simp; omega
        · have := hrest a h2
          simp
          omega
      rw [hz]
      simp
    · rw [if_neg hj]
      rw [List.length_replicate] at hj
      have hjge : f - cur ≤ j := by omega
      rw [List.length_replicate]
      rw [ih (n + 1) f (j - (f - cur)) hp' hrest]
      have harith : f + (j - (f - cur)) = cur + j := by omega
      rw [harith]
      by_cases hcond : cur + j ≤ lastFst rest f
      · rw [if_pos hcond, if_pos hcond]
        have hcnt : ((f, t) :: rest).countP (fun p => p.1 ≤ cur + j) =
            rest.countP (fun p => p.1 ≤ cur + j) + 1 := by
          apply List.countP_cons_of_pos
          simp
          omega
        rw [hcnt]
        congr 1
        omega
      · rw [if_neg hcond, if_neg hcond]

/-- Counting `≤ r` is counting `< r + 1`. -/
theorem countP_le_succ_eq_lt (s : List (Nat × Nat)) (r : Nat) :
    s.countP (fun p => p.1 ≤ r) = s.countP (fun p => p.1 < r + 1) := by
  induction s with
  | nil => rfl
  | cons p rest ih =>
    by_cases h : p.1 ≤ r
    · rw [List.countP_cons_of_pos (fun p => decide (p.1 ≤ r)) rest (by simp <;> omega),
        List.countP_cons_of_pos (fun p => decide (p.1 < r + 1)) rest (by simp <;> omega), ih]
    · rw [List.countP_cons_of_neg (fun p => decide (p.1 ≤ r)) rest (by simp <;> omega),
        List.countP_cons_of_neg (fun p => decide (p.1 < r + 1)) rest (by simp <;> omega), ih]

/-- The full row-pointer array of a matrix compressed from a row-sorted list:
entry `r` is the number of pairs in rows `< r`, defined up to
`lastFst + 1`. -/
theorem fr_getElem? (s : List (Nat × Nat)) (r : Nat)
    (hp : List.Pairwise (fun p q => p.1 ≤ q.1) s) :
    (0 :: frTail s 0 0)[r]? =
      if r ≤ lastFst s 0 + 1
      then some (s.countP (fun p => p.1 < r))
      else none := by
  match r with
  | 0 =>
    rw [if_pos (by omega)]
    have hz : s.countP (fun p => p.1 < 0) = 0 := by
      rw [List.countP_eq_zero]
      intro a _
      simp
    rw [hz]
    simp
  | r + 1 =>
    have e : (0 :: frTail s 0 0)[r + 1]? = (frTail s 0 0)[r]? := by simp
    rw [e, frTail_getElem? s 0 0 r hp (fun p _ => Nat.zero_le _)]
    rw [← countP_le_succ_eq_lt]
    simp only [Nat.zero_add]
    by_cases hc : r ≤ lastFst s 0
    · rw [if_pos hc, if_pos (by omega)]
    · rw [if_neg hc, if_neg (by omega)]

/-- On a sorted list whose rows all lie at or above `r`, taking the first
`countP (≤ r)` second components yields exactly the row-`r` entries. -/
theorem take_countP_eq_filter_snd :
    ∀ (s : List (Nat × Nat)) (r : Nat),
      List.Pairwise (fun p q => p.1 ≤ q.1) s → (∀ p ∈ s, r ≤ p.1) →
      (s.map Prod.snd).take (s.countP (fun p => p.1 ≤ r)) =
        (s.filter (fun p => p.1 = r)).map Prod.snd := by
  intro s
  induction s with
  | nil => intro r _ _; rfl
  | cons p rest ih =>
    intro r hp hge
    obtain ⟨g, u⟩ := p
    have hgr : r ≤ g := hge (g, u) (by simp)
    have hrest : ∀ q ∈ rest, g ≤ q.1 := fun q hq => (List.pairwise_cons.mp hp).1 q hq
    have hp' := (List.pairwise_cons.mp hp).2
    by_cases hg : g = r
    · rw [List.countP_cons_of_pos (fun p => decide (p.1 ≤ r)) rest (by simp <;> omega)]
      rw [show ((g, u) :: rest).filter (fun p => p.1 = r) =
        (g, u) :: rest.filter (fun p => p.1 = r) from by
          rw [List.filter_cons_of_pos]
          simp <;> omega]
      simp only [List.map_cons, List.take_succ_cons]
      rw [ih r hp' fun q hq => by have := hrest q hq; omega]
    · have hgr2 : r < g := by omega
      rw [List.countP_cons_of_neg (fun p => decide (p.1 ≤ r)) rest (by simp <;> omega)]
      have hz : rest.countP (fun p => p.1 ≤ r) = 0 := by
        rw [List.countP_eq_zero]
        intro a ha
        have := hrest a ha
        simp
        omega
      rw [hz]
      rw [show ((g, u) :: rest).filter (fun p => p.1 = r) = [] from by
        rw [List.filter_eq_nil_iff]
        intro a ha
        rcases List.mem_cons.mp ha with h1 | h2
        · subst h1; simp; omega
        · have := hrest a h2; simp; omega]
      simp

/-- The CRS slice `[countP (< r), countP (≤ r))` of the column array of a
row-sorted list is exactly the column list of row `r`. -/
theorem drop_take_eq_filter_snd :
    ∀ (s : List (Nat × Nat)) (r : Nat),
      List.Pairwise (fun p q => p.1 ≤ q.1) s →
      ((s.map Prod.snd).drop (s.countP (fun p => p.1 < r))).take
          (s.countP (fun p => p.1 ≤ r) - s.countP (fun p => p.1 < r)) =
        (s.filter (fun p => p.1 = r)).map Prod.snd := by
  intro s
  induction s with
  | nil => intro r _; rfl
  | cons p rest ih =>
    intro r hp
    obtain ⟨f, t⟩ := p
    have hrest : ∀ q ∈ rest, f ≤ q.1 := fun q hq => (List.pairwise_cons.mp hp).1 q hq
    have hp' := (List.pairwise_cons.mp hp).2
    rcases Nat.lt_trichotomy f r with hf | hf | hf
    · rw [List.countP_cons_of_pos (fun p => decide (p.1 ≤ r)) rest (by simp <;> omega),
        List.countP_cons_of_pos (fun p => decide (p.1 < r)) rest (by simp <;> omega)]
      simp only [List.map_cons, List.drop_succ_cons]
      rw [show ((f, t) :: rest).filter (fun p => p.1 = r) =
        rest.filter (fun p => p.1 = r) from by
          rw [List.filter_cons_of_neg]
          simp <;> omega]
      rw [show rest.countP (fun p => p.1 ≤ r) + 1 - (rest.countP (fun p => p.1 < r) + 1) =
        rest.countP (fun p => p.1 ≤ r) - rest.countP (fun p => p.1 < r) from by omega]
      exact ih r hp'
    · subst hf
      rw [List.countP_cons_of_pos (fun p => decide (p.1 ≤ f)) rest (by simp <;> omega),
        List.countP_cons_of_neg (fun p => decide (p.1 < f)) rest (by simp <;> omega)]
      have hz : rest.countP (fun p => p.1 < f) = 0 := by
        rw [List.countP_eq_zero]
        intro a ha
        have := hrest a ha
        simp
        omega
      rw [hz]
      simp only [List.map_cons, List.drop_zero, Nat.sub_zero, List.take_succ_cons]
      rw [show ((f, t) :: rest).filter (fun p => p.1 = f) =
        (f, t) :: rest.filter (fun p => p.1 = f) from by
          rw [List.filter_cons_of_pos]
          simp]
      simp only [List.map_cons]
      rw [take_countP_eq_filter_snd rest f hp' hrest]
    · rw [List.countP_cons_of_neg (fun p => decide (p.1 ≤ r)) rest (by simp <;> omega),
        List.countP_cons_of_neg (fun p => decide (p.1 < r)) rest (by simp <;> omega)]
      have hz1 : rest.countP (fun p => p.1 < r) = 0 := by
        rw [List.countP_eq_zero]
        intro a ha
        have := hrest a ha
        simp
        omega
      have hz2 : rest.countP (fun p => p.1 ≤ r) = 0 := by
        rw [List.countP_eq_zero]
        intro a ha
        have := hrest a ha
        simp
        omega
      rw [hz1, hz2]
      rw [show ((f, t) :: rest).filter (fun p => p.1 = r) = [] from by
        rw [List.filter_eq_nil_iff]
        intro a ha
        rcases List.mem_cons.mp ha with h1 | h2
        · subst h1; simp; omega
        · have := hrest a h2; simp; omega]
      simp

/-- C4, amended: every matrix built by the sorting constructor `from_vec`
(and hence by `from_iter` and `transpose`, which delegate to it) satisfies
the invariant that every row lookup yields a sorted (ascending) column list.
The counterexample `c4_counterexample` shows that the invariant does not
extend to the whole public surface: the exported `unsafe from_sorted_vec`
accepts unsorted input unchecked. -/
theorem c4_from_vec_rows_sorted
    (l : List (Nat × Nat)) (r : Nat) (m : ConnectionMatrix) (row : List Nat)
    (hm : ConnectionMatrix.from_vec l = some m)
    (hr : m.get_connected r = some row) :
    List.Pairwise (· ≤ ·) row := by
  have hps : List.Pairwise pairLe (List.insertionSort pairLe l) :=
    List.sorted_insertionSort pairLe l
  set s := List.insertionSort pairLe l with hs
  have hpf : List.Pairwise (fun p q => p.1 ≤ q.1) s :=
    hps.imp (by intro a b h; unfold pairLe at h; omega)
  have hloop := fromSortedVecLoop_eq s 0 [0] [] 0 hpf (fun p _ => Nat.zero_le _)
  have hm2 : m = ⟨[0] ++ frTail s 0 0, s.map Prod.snd,
      (s.map Prod.snd).foldl max 0⟩ := by
    unfold ConnectionMatrix.from_vec ConnectionMatrix.from_sorted_vec at hm
    rw [← hs] at hm
    simp only [List.length_nil] at hloop
    rw [hloop] at hm
    simpa using (Option.some.inj hm).symm
  subst hm2
  unfold ConnectionMatrix.get_connected at hr
  simp only [List.singleton_append] at hr
  rw [fr_getElem? s r hpf, fr_getElem? s (r + 1) hpf] at hr
  by_cases hc2 : r + 1 ≤ lastFst s 0 + 1
  · have hc1 : r ≤ lastFst s 0 + 1 := by omega
    rw [if_pos hc1, if_pos hc2] at hr
    dsimp only [] at hr
    have hmono : s.countP (fun p => p.1 < r) ≤ s.countP (fun p => p.1 < r + 1) :=
      List.countP_mono_left fun a _ => by simp <;> omega
    have hlen : s.countP (fun p => p.1 < r + 1) ≤ (s.map Prod.snd).length := by
      rw [List.length_map]
      exact List.countP_le_length _
    rw [if_pos ⟨hmono, hlen⟩] at hr
    have hrow := Option.some.inj hr
    rw [← hrow]
    rw [← countP_le_succ_eq_lt]
    rw [drop_take_eq_filter_snd s r hpf]
    rw [List.pairwise_map]
    refine (hps.filter _).imp_of_mem ?_
    intro a b ha hb hab
    have ha' := (List.mem_filter.mp ha).2
    have hb' := (List.mem_filter.mp hb).2
    simp only [decide_eq_true_eq] at ha' hb'
    unfold pairLe at hab
    omega
  · rw [if_neg hc2] at hr
    by_cases hc1 : r ≤ lastFst s 0 + 1
    · rw [if_pos hc1] at hr
      exact absurd hr (by simp)
    · rw [if_neg hc1] at hr
      exact absurd hr (by simp)

/-- Witness for the amended C4 claim: an unsorted three-pair input whose
row 1 comes out sorted. -/
theorem c4_from_vec_rows_sorted_witness :
    ConnectionMatrix.from_vec [(1, 3), (0, 2), (1, 1)] =
      some ⟨[0, 1, 3], [2, 1, 3], 3⟩ ∧
    ConnectionMatrix.get_connected ⟨[0, 1, 3], [2, 1, 3], 3⟩ 1 = some [1, 3] ∧
    List.Pairwise (· ≤ ·) [1, 3] :=
  ⟨by decide, by decide,
    c4_from_vec_rows_sorted [(1, 3), (0, 2), (1, 1)] 1 ⟨[0, 1, 3], [2, 1, 3], 3⟩
      [1, 3] (by decide) (by decide)⟩
